import Mathlib

/-!
Shallow embedding of the spectral-coherency connectivity estimator of
`coherency.cpp` (Coherency::calculateReal / calculateImag / calculate,
Coherency::compute, Coherency::computePSDCSD{,Real,Imag}) together with the
data it manipulates (ConnectivityTrialData, the accumulated PSD/CSD sums of
ConnectivitySettings, and the output Network).

The C++ works on `double` / `std::complex<double>` Eigen matrices; the
embedding models those values as `ℝ` / `ℂ` (exact arithmetic), hence the
definitions live in a `noncomputable section`.  Dynamically sized Eigen
matrices are modelled as a pair of extents plus a total entry function;
entries outside the extents are unconstrained junk, exactly like Eigen's
unchecked storage.

The concurrent phases (`QtConcurrent::map` + `waitForFinished`, with every
shared-state mutation inside the single `QMutex`) are modelled as in-order
folds over the corresponding lists: the mutex fully serializes the merges and
the barrier separates the phases, so an in-order traversal is one admissible
schedule of the real program.
-/

noncomputable section

namespace MNE

/-- Eigen-style dynamically sized matrix: a row count, a column count and a
total entry function.  Entries at indices outside the extents are
meaningless junk (Eigen storage is unchecked); all statements below only
constrain in-bounds entries or whole-entry-function equalities that arise
from the code's own total formulas. -/
structure Mat (α : Type) where
  rows : ℕ
  cols : ℕ
  entry : ℕ → ℕ → α

/-- Eigen `+=` on real matrices (requires equal extents in C++; the result
keeps the left operand's extents and adds entrywise). -/
def Mat.add (A B : Mat ℝ) : Mat ℝ :=
  ⟨A.rows, A.cols, fun i j => A.entry i j + B.entry i j⟩

/-- Eigen `+=` on complex matrices. -/
def Mat.addC (A B : Mat ℂ) : Mat ℂ :=
  ⟨A.rows, A.cols, fun i j => A.entry i j + B.entry i j⟩

/-- `MatrixXd::cwiseSqrt` (line 155/237/319): entrywise square root. -/
def Mat.cwiseSqrt (A : Mat ℝ) : Mat ℝ :=
  ⟨A.rows, A.cols, fun i j => Real.sqrt (A.entry i j)⟩

/-- A default-constructed (0 x 0) `MatrixXd`, the initial value of
`connectivitySettings.data.matPsdSum` in a fresh run. -/
def Mat.emptyR : Mat ℝ := ⟨0, 0, fun _ _ => 0⟩

/-- A default-constructed (0 x 0) `MatrixXcd` (used as an out-of-range
default when a pair list is indexed). -/
def Mat.emptyC : Mat ℂ := ⟨0, 0, fun _ _ => 0⟩

/-- The taper set returned by `Spectral::generateTapers` (a
`QPair<MatrixXd, VectorXd>`): `first` is the K x L taper-window matrix,
`second` the length-K per-taper weight vector (K = `first.rows`). -/
structure TaperSet where
  first : Mat ℝ
  second : ℕ → ℝ

/-- Half-spectrum forward DFT of length `nfft`, as Eigen's
`FFT<double>::fwd(out, in, nfft)` with the `HalfSpectrum` flag (lines
376-397): the real input row of `sigLen` samples is zero-padded (or
truncated) to `nfft` and bin `k` of the length-`nfft` DFT is returned. -/
def dftHalf (nfft sigLen : ℕ) (x : ℕ → ℝ) (k : ℕ) : ℂ :=
  Finset.sum (Finset.range (min sigLen nfft)) fun n =>
    (x n : ℂ) * Complex.exp (-(2 * (Real.pi : ℂ) * Complex.I * k * n) / nfft)

/-- Eigen `.mean()` of row `i`: the sum of the row divided by its size. -/
def rowMean (A : Mat ℝ) (i : ℕ) : ℝ :=
  (Finset.sum (Finset.range A.cols) fun n => A.entry i n) / (A.cols : ℝ)

/-- Line 392: `rowData = matData.row(i) - matData.row(i).mean()`. -/
def demeanedRow (A : Mat ℝ) (i : ℕ) : ℕ → ℝ :=
  fun n => A.entry i n - rowMean A i

/-- Lines 395-399: `matTapSpectrum.row(j)` — the demeaned row is multiplied
entrywise by taper row `j`, FFT'd to the half spectrum of length `iNfft`, and
the resulting spectrum is scaled by taper weight `tapers.second(j)`. -/
def tapSpectrum (tapers : TaperSet) (iNfft : ℕ) (A : Mat ℝ) (i j k : ℕ) : ℂ :=
  (tapers.second j : ℂ) *
    dftHalf iNfft A.cols (fun n => demeanedRow A i n * tapers.first.entry j n) k

/-- `tapers.second.cwiseAbs2().sum()`: the sum of the squared taper weights
(the squared taper-weight norm). -/
def weightSq (tapers : TaperSet) : ℝ :=
  Finset.sum (Finset.range tapers.first.rows) fun j => (tapers.second j) ^ 2

/-- Line 379: `denomPSD = tapers.second.cwiseAbs2().sum() / 2.0`. -/
def denomPSD (tapers : TaperSet) : ℝ := weightSq tapers / 2

/-- Line 419: `denomCSD = sqrt(s) * sqrt(s) / 2.0` with
`s = tapers.second.cwiseAbs2().sum()` (written exactly as the source does,
with the two square roots). -/
def denomCSD (tapers : TaperSet) : ℝ :=
  Real.sqrt (weightSq tapers) * Real.sqrt (weightSq tapers) / 2

/-- Line 404: PSD bin `k` of channel `i` before the half-spectrum halving:
the squared magnitudes of the per-taper spectra summed over the tapers,
divided by `denomPSD`. -/
def psdRaw (tapers : TaperSet) (iNfft : ℕ) (A : Mat ℝ) (i k : ℕ) : ℝ :=
  (Finset.sum (Finset.range tapers.first.rows) fun j =>
    Complex.normSq (tapSpectrum tapers iNfft A i j k)) / denomPSD tapers

/-- Lines 406-410 and 428-432: the half-spectrum halving applied to one row,
in the source's order: first bin 0 is divided by 2, then — when `nfft` is
even — the last bin (`iNFreqs - 1`) is divided by 2 as well (so when both
conditions name the same bin it is divided by 4, as the two sequenced
`/= 2.0` statements do). -/
def halveEnds {α : Type} [DivisionRing α] (bNfftEven : Bool) (iNFreqs : ℕ)
    (v : ℕ → α) : ℕ → α :=
  fun k =>
    let v1 : α := if k = 0 then v k / 2 else v k
    if bNfftEven = true ∧ k = iNFreqs - 1 then v1 / 2 else v1

/-- PSD bin `k` of channel `i` as stored into `inputData.matPsd.row(i)`
(lines 404-410). -/
def psdEntry (tapers : TaperSet) (iNfft iNFreqs : ℕ) (A : Mat ℝ) (i k : ℕ) : ℝ :=
  halveEnds (iNfft % 2 == 0) iNFreqs (psdRaw tapers iNfft A i) k

/-- Line 426: CSD bin `k` of the channel pair `(i, j)` before the halving:
per-taper products `spectrum_i * conj(spectrum_j)` summed over the tapers
(`colwise().sum()`), divided by `denomCSD`. -/
def csdRaw (tapers : TaperSet) (iNfft : ℕ) (A : Mat ℝ) (i j k : ℕ) : ℂ :=
  (Finset.sum (Finset.range tapers.first.rows) fun m =>
    tapSpectrum tapers iNfft A i m k *
      (starRingEnd ℂ) (tapSpectrum tapers iNfft A j m k)) / (denomCSD tapers : ℂ)

/-- CSD bin `k` of pair `(i, j)` after the halving (lines 426-432). -/
def csdEntry (tapers : TaperSet) (iNfft iNFreqs : ℕ) (A : Mat ℝ) (i j : ℕ) : ℕ → ℂ :=
  halveEnds (iNfft % 2 == 0) iNFreqs (csdRaw tapers iNfft A i j)

/-- The `matCsd` snapshot appended as pair `i` (lines 421-435).  `matCsd` is
one `iNRows x iNFreqs` matrix reused across the outer loop: at outer
iteration `i` only rows `j >= i` are (re)written, so row `j >= i` holds the
`(i, j)` CSD while a row `j < i` still holds the value the iteration `i' = j`
last wrote into it, namely the `(j, j)` CSD.  The stale rows are never read
downstream (the edge builders start at row `pairInput.first`). -/
def csdPairMat (tapers : TaperSet) (iNfft iNRows iNFreqs : ℕ) (A : Mat ℝ)
    (i : ℕ) : Mat ℂ :=
  ⟨iNRows, iNFreqs, fun j k =>
    if i ≤ j then csdEntry tapers iNfft iNFreqs A i j k
    else csdEntry tapers iNfft iNFreqs A j j k⟩

/-- Line 388 + loop 390-411: the freshly assigned `inputData.matPsd`. -/
def trialPsd (tapers : TaperSet) (iNfft iNRows iNFreqs : ℕ) (A : Mat ℝ) : Mat ℝ :=
  ⟨iNRows, iNFreqs, fun i k => psdEntry tapers iNfft iNFreqs A i k⟩

/-- Loop 423-436: the pairs `(i, matCsd snapshot)` appended to
`inputData.vecPairCsd`, one per channel `i`. -/
def trialCsdPairs (tapers : TaperSet) (iNfft iNRows iNFreqs : ℕ) (A : Mat ℝ) :
    List (ℕ × Mat ℂ) :=
  (List.range iNRows).map fun i => (i, csdPairMat tapers iNfft iNRows iNFreqs A i)

/-- `ConnectivityTrialData`: the per-trial input matrix (`matData`, channels
x samples) together with the trial's cached spectral result (`matPsd`,
`vecPairCsd`), which `Coherency::compute` fills in place. -/
structure ConnectivityTrialData where
  matData : Mat ℝ
  matPsd : Mat ℝ
  vecPairCsd : List (ℕ × Mat ℂ)

/-- Lines 358-360: the memoization test of `Coherency::compute` — the trial
is treated as already computed when its cached CSD pair list has `iNRows`
entries and its cached PSD is `iNRows x iNFreqs`. -/
def memoDone (t : ConnectivityTrialData) (iNRows iNFreqs : ℕ) : Bool :=
  t.vecPairCsd.length == iNRows && t.matPsd.rows == iNRows && t.matPsd.cols == iNFreqs

/-- The accumulated running sums inside `connectivitySettings.data`:
`matPsdSum` and `vecPairCsdSum`. -/
structure AccumulatedSpectra where
  matPsdSum : Mat ℝ
  vecPairCsdSum : List (ℕ × Mat ℂ)

/-- The accumulator at the start of a fresh run: a default-constructed
(0 x 0) `matPsdSum` and an empty `vecPairCsdSum`. -/
def emptyAcc : AccumulatedSpectra := ⟨Mat.emptyR, []⟩

/-- Lines 444-448: the guarded merge of a trial PSD into `matPsdSum` — the
first merge (accumulator still 0 x 0) copies, later merges add entrywise. -/
def mergePsd (acc p : Mat ℝ) : Mat ℝ :=
  if acc.rows = 0 ∨ acc.cols = 0 then p else acc.add p

/-- Lines 450-456: the guarded merge of a trial's CSD pair list into
`vecPairCsdSum` — the first merge copies the list, later merges add the
matrices entrywise pairwise (the loop runs over the accumulator's indices
and keeps each accumulator pair's channel index; both lists have the same
length in every defined-behaviour run, which `zipWith` reproduces). -/
def mergeCsd (acc inp : List (ℕ × Mat ℂ)) : List (ℕ × Mat ℂ) :=
  if acc.isEmpty then inp
  else List.zipWith (fun a b => (a.1, Mat.addC a.2 b.2)) acc inp

/-- `Coherency::compute` (lines 345-463) as a pure state transformer: it
returns the (possibly freshly filled) trial object and the updated
accumulator.  On the memoization hit (lines 358-363) it returns both
unchanged.  Otherwise it computes the trial PSD and CSD snapshot, assigns
`matPsd`, appends the CSD pairs to whatever `vecPairCsd` already held
(line 435 appends, it does not clear), and merges both into the
accumulator under the mutex (lines 442-458). -/
def compute (iNRows iNFreqs iNfft : ℕ) (tapers : TaperSet)
    (inputData : ConnectivityTrialData) (acc : AccumulatedSpectra) :
    ConnectivityTrialData × AccumulatedSpectra :=
  if memoDone inputData iNRows iNFreqs then (inputData, acc)
  else
    let psd := trialPsd tapers iNfft iNRows iNFreqs inputData.matData
    let pairs := inputData.vecPairCsd ++ trialCsdPairs tapers iNfft iNRows iNFreqs inputData.matData
    (⟨inputData.matData, psd, pairs⟩,
     ⟨mergePsd acc.matPsdSum psd, mergeCsd acc.vecPairCsdSum pairs⟩)

/-- The trial phase (`QtConcurrent::map(m_dataList, computeLambda)` +
`waitForFinished`, lines 147-149): every trial is processed and merged; the
mutex serializes the merges, modelled as the in-order traversal. -/
def computeList (iNRows iNFreqs iNfft : ℕ) (tapers : TaperSet) :
    List ConnectivityTrialData → AccumulatedSpectra →
    List ConnectivityTrialData × AccumulatedSpectra
  | [], acc => ([], acc)
  | t :: ts, acc =>
    let r := compute iNRows iNFreqs iNfft tapers t acc
    let rest := computeList iNRows iNFreqs iNfft tapers ts r.2
    (r.1 :: rest.1, rest.2)

/-- The value of a trial object after a non-memoized pass of
`Coherency::compute`: `matData` untouched, `matPsd` freshly assigned, the
CSD pair snapshots appended to whatever `vecPairCsd` already held. -/
def processedTrial (tapers : TaperSet) (iNfft iNRows iNFreqs : ℕ)
    (t : ConnectivityTrialData) : ConnectivityTrialData :=
  ⟨t.matData, trialPsd tapers iNfft iNRows iNFreqs t.matData,
   t.vecPairCsd ++ trialCsdPairs tapers iNfft iNRows iNFreqs t.matData⟩

/-- The fields of `ConnectivitySettings` the estimator reads and writes:
the configured FFT length (`m_iNfft`, a C++ `int`, so `ℤ`), the window-type
name, the trial list and the accumulated sums. -/
structure ConnectivitySettings where
  m_iNfft : ℤ
  m_sWindowType : String
  m_dataList : List ConnectivityTrialData
  data : AccumulatedSpectra

/-- Lines 116-120: the effective FFT length — the configured `m_iNfft`,
raised to the first trial's sample count when it is smaller. -/
def effectiveNfft (m_iNfft : ℤ) (iSignalLength : ℕ) : ℕ :=
  if m_iNfft < (iSignalLength : ℤ) then iSignalLength else m_iNfft.toNat

/-- Modelled from the spec: `NetworkEdge` (network/networkedge.h is not under
src/).  Per spec section 3, an edge carries its two endpoint node indices and a
per-frequency-bin weight vector. -/
structure NetworkEdge where
  startId : ℕ
  endId : ℕ
  matWeight : List ℝ

/-- Modelled from the spec: `Network` / `NetworkNode` (network/network.h and
network/networknode.h are not under src/).  Per spec sections 3, 4.5 and 9:
an append-only global edge list owning the edges, and per-node adjacency
lists holding non-owning back-references (indices into the edge list). -/
structure Network where
  edges : List NetworkEdge
  adj : ℕ → List ℕ

/-- Modelled from the spec: the three appends of one shared edge performed
inside one critical section (lines 508-512 and 542-546 of the source:
`getNodeAt(i)->append(pEdge); getNodeAt(j)->append(pEdge); append(pEdge)`).
The new edge goes once onto the global edge list; its index is appended to
the start node's adjacency list and then to the end node's adjacency list —
two appends to the same list when the edge is a self-loop. -/
def Network.addEdge (net : Network) (e : NetworkEdge) : Network :=
  { edges := net.edges ++ [e],
    adj := fun n =>
      net.adj n ++ (if n = e.startId then [net.edges.length] else [])
                ++ (if n = e.endId then [net.edges.length] else []) }

/-- A default-constructed empty `Network`. -/
def emptyNetwork : Network := ⟨[], fun _ => []⟩

/-- Lines 489-497 / 524-531 / 471-478 (shared by all three normalizers):
entry `(j, k)` of `matCohy = pairInput.second.cwiseQuotient(matPSDtmp)`,
where row `j` of `matPSDtmp` is `matPsdSum.row(pairInput.first)` times
`matPsdSum.row(j)` entrywise. -/
def cohyEntry (pair : ℕ × Mat ℂ) (matPsdSum : Mat ℝ) (j k : ℕ) : ℂ :=
  pair.2.entry j k / ((matPsdSum.entry pair.1 k * matPsdSum.entry j k : ℝ) : ℂ)

/-- Lines 504-513: the edges built from one CSD pair by
`computePSDCSDReal` — for `j` from `pairInput.first` to `matCohy.rows() - 1`,
one edge `(i, j)` whose weight vector is `matCohy.row(j).cwiseAbs()`. -/
def edgesReal (pair : ℕ × Mat ℂ) (matPsdSum : Mat ℝ) : List NetworkEdge :=
  (List.range' pair.1 (pair.2.rows - pair.1)).map fun j =>
    ⟨pair.1, j, (List.range pair.2.cols).map fun k =>
      Complex.abs (cohyEntry pair matPsdSum j k)⟩

/-- Lines 538-547: the edges built from one CSD pair by
`computePSDCSDImag` — identical to `edgesReal` except the weight vector is
`matCohy.row(j).imag()`. -/
def edgesImag (pair : ℕ × Mat ℂ) (matPsdSum : Mat ℝ) : List NetworkEdge :=
  (List.range' pair.1 (pair.2.rows - pair.1)).map fun j =>
    ⟨pair.1, j, (List.range pair.2.cols).map fun k =>
      (cohyEntry pair matPsdSum j k).im⟩

/-- `Coherency::computePSDCSDReal` (lines 484-514) as a network
transformer: each built edge is attached by `Network.addEdge`. -/
def computePSDCSDReal (net : Network) (pair : ℕ × Mat ℂ) (matPsdSum : Mat ℝ) :
    Network :=
  (edgesReal pair matPsdSum).foldl Network.addEdge net

/-- `Coherency::computePSDCSDImag` (lines 519-548). -/
def computePSDCSDImag (net : Network) (pair : ℕ × Mat ℂ) (matPsdSum : Mat ℝ) :
    Network :=
  (edgesImag pair matPsdSum).foldl Network.addEdge net

/-- `Coherency::computePSDCSD` (lines 468-479): the plain variant overwrites
`pairInput.second` (taken by non-const reference) with the quotient
`matCohy` itself. -/
def computePSDCSD (pair : ℕ × Mat ℂ) (matPsdSum : Mat ℝ) : ℕ × Mat ℂ :=
  (pair.1, ⟨pair.2.rows, pair.2.cols, fun j k => cohyEntry pair matPsdSum j k⟩)

/-- The network phase of `calculateReal` (lines 162-171): the pair tasks are
independent and every attach is inside the mutex; modelled as the in-order
fold. -/
def networkPhaseReal (net : Network) (pairs : List (ℕ × Mat ℂ))
    (matPsdSum : Mat ℝ) : Network :=
  pairs.foldl (fun n p => computePSDCSDReal n p matPsdSum) net

/-- The network phase of `calculateImag` (lines 244-253). -/
def networkPhaseImag (net : Network) (pairs : List (ℕ × Mat ℂ))
    (matPsdSum : Mat ℝ) : Network :=
  pairs.foldl (fun n p => computePSDCSDImag n p matPsdSum) net

/-- `Coherency::calculateReal` (lines 99-176), parametrized by the taper
generator `gen` standing for `Spectral::generateTapers` (utils/spectral is
not under src/; the estimator only passes the signal length and window name
through to it).  Returns the updated network and settings.  An empty trial
list returns both unchanged (lines 106-109); otherwise: effective FFT
length (116-120), tapers (123), extents (126-127), trial phase (147-149),
`matPsdSum = matPsdSum.cwiseSqrt()` (155), network phase (162-171). -/
def calculateReal (gen : ℕ → String → TaperSet) (finalNetwork : Network)
    (s : ConnectivitySettings) : Network × ConnectivitySettings :=
  match s.m_dataList with
  | [] => (finalNetwork, s)
  | t0 :: _ =>
    let iSignalLength := t0.matData.cols
    let iNfft := effectiveNfft s.m_iNfft iSignalLength
    let tapers := gen iSignalLength s.m_sWindowType
    let iNRows := t0.matData.rows
    let iNFreqs := iNfft / 2 + 1
    let r := computeList iNRows iNFreqs iNfft tapers s.m_dataList s.data
    let psdSqrt := r.2.matPsdSum.cwiseSqrt
    let net := networkPhaseReal finalNetwork r.2.vecPairCsdSum psdSqrt
    (net, { s with m_dataList := r.1, data := ⟨psdSqrt, r.2.vecPairCsdSum⟩ })

/-- `Coherency::calculateImag` (lines 181-258): identical to `calculateReal`
up to the imaginary-part weight transform of its network phase. -/
def calculateImag (gen : ℕ → String → TaperSet) (finalNetwork : Network)
    (s : ConnectivitySettings) : Network × ConnectivitySettings :=
  match s.m_dataList with
  | [] => (finalNetwork, s)
  | t0 :: _ =>
    let iSignalLength := t0.matData.cols
    let iNfft := effectiveNfft s.m_iNfft iSignalLength
    let tapers := gen iSignalLength s.m_sWindowType
    let iNRows := t0.matData.rows
    let iNFreqs := iNfft / 2 + 1
    let r := computeList iNRows iNFreqs iNfft tapers s.m_dataList s.data
    let psdSqrt := r.2.matPsdSum.cwiseSqrt
    let net := networkPhaseImag finalNetwork r.2.vecPairCsdSum psdSqrt
    (net, { s with m_dataList := r.1, data := ⟨psdSqrt, r.2.vecPairCsdSum⟩ })

/-- `Coherency::calculate` (lines 263-340): same preparation and trial
phase; the plain variant maps `computePSDCSD` over `vecPairCsdSum`
(overwriting the stored pairs with the quotients, line 478) and then copies
the mutated list into `vecCoherency` (line 335).  An empty trial list
returns with `vecCoherency` and the settings untouched (lines 270-273). -/
def calculate (gen : ℕ → String → TaperSet) (vecCoherency : List (ℕ × Mat ℂ))
    (s : ConnectivitySettings) : List (ℕ × Mat ℂ) × ConnectivitySettings :=
  match s.m_dataList with
  | [] => (vecCoherency, s)
  | t0 :: _ =>
    let iSignalLength := t0.matData.cols
    let iNfft := effectiveNfft s.m_iNfft iSignalLength
    let tapers := gen iSignalLength s.m_sWindowType
    let iNRows := t0.matData.rows
    let iNFreqs := iNfft / 2 + 1
    let r := computeList iNRows iNFreqs iNfft tapers s.m_dataList s.data
    let psdSqrt := r.2.matPsdSum.cwiseSqrt
    let pairs := r.2.vecPairCsdSum.map fun p => computePSDCSD p psdSqrt
    (pairs, { s with m_dataList := r.1, data := ⟨psdSqrt, pairs⟩ })

/-- All unordered channel pairs `(i, j)` with `i ≤ j < C`, in the order the
two network phases create their edges. -/
def allPairs (C : ℕ) : List (ℕ × ℕ) :=
  (List.range C).flatMap fun i => (List.range' i (C - i)).map fun j => (i, j)

/-- Spec formula, section 4.2 steps 1-2: the tapered spectrum of channel `i`
under taper `j` — the demeaned row, multiplied entrywise by the taper
window, transformed by the length-`nfft` half-spectrum real FFT and scaled
by the taper's weight. -/
def specTaperedSpectrum (tapers : TaperSet) (iNfft : ℕ) (A : Mat ℝ)
    (i j k : ℕ) : ℂ :=
  (tapers.second j : ℂ) *
    dftHalf iNfft A.cols (fun n => (A.entry i n - rowMean A i) * tapers.first.entry j n) k

/-- Spec formula: the half-spectrum correction divisor — 2 at bin 0, a
further 2 at the last bin when `nfft` is even, 1 elsewhere. -/
def specHalve (iNfft iNFreqs k : ℕ) : ℝ :=
  (if k = 0 then 2 else 1) * (if iNfft % 2 = 0 ∧ k = iNFreqs - 1 then 2 else 1)

/-- Spec formula, section 4.2 step 3: PSD = sum over tapers of the squared
magnitude of the tapered spectrum, divided by (sum of squared taper weights
/ 2), with the bin-0 / Nyquist halving. -/
def specPsdEntry (tapers : TaperSet) (iNfft iNFreqs : ℕ) (A : Mat ℝ)
    (i k : ℕ) : ℝ :=
  ((Finset.sum (Finset.range tapers.first.rows) fun j =>
      Complex.normSq (specTaperedSpectrum tapers iNfft A i j k)) /
    (weightSq tapers / 2)) / specHalve iNfft iNFreqs k

/-- Spec formula, section 4.2: CSD = sum over tapers of
`spectrum_i * conj(spectrum_j)`, divided by the same denominator
(sum of squared taper weights / 2), with the same halving. -/
def specCsdEntry (tapers : TaperSet) (iNfft iNFreqs : ℕ) (A : Mat ℝ)
    (i j k : ℕ) : ℂ :=
  ((Finset.sum (Finset.range tapers.first.rows) fun m =>
      specTaperedSpectrum tapers iNfft A i m k *
        (starRingEnd ℂ) (specTaperedSpectrum tapers iNfft A j m k)) /
    ((weightSq tapers / 2 : ℝ) : ℂ)) / ((specHalve iNfft iNFreqs k : ℝ) : ℂ)

/-! ## Basic lemmas about the embedding -/

theorem foldl_addEdge_edges (l : List NetworkEdge) (net : Network) :
    (l.foldl Network.addEdge net).edges = net.edges ++ l := by
  induction l generalizing net with
  | nil => simp
  | cons e l ih => simp [List.foldl_cons, ih, Network.addEdge]

theorem networkPhaseReal_edges (net : Network) (pairs : List (ℕ × Mat ℂ))
    (psd : Mat ℝ) :
    (networkPhaseReal net pairs psd).edges
      = net.edges ++ pairs.flatMap (fun p => edgesReal p psd) := by
  induction pairs generalizing net with
  | nil => simp [networkPhaseReal]
  | cons p pairs ih =>
    simp only [networkPhaseReal, List.foldl_cons] at *
    rw [ih, List.flatMap_cons, ← List.append_assoc]
    simp [computePSDCSDReal, foldl_addEdge_edges]

theorem networkPhaseImag_edges (net : Network) (pairs : List (ℕ × Mat ℂ))
    (psd : Mat ℝ) :
    (networkPhaseImag net pairs psd).edges
      = net.edges ++ pairs.flatMap (fun p => edgesImag p psd) := by
  induction pairs generalizing net with
  | nil => simp [networkPhaseImag]
  | cons p pairs ih =>
    simp only [networkPhaseImag, List.foldl_cons] at *
    rw [ih, List.flatMap_cons, ← List.append_assoc]
    simp [computePSDCSDImag, foldl_addEdge_edges]

theorem memoDone_false_of_fresh (t : ConnectivityTrialData) (iNRows iNFreqs : ℕ)
    (h : t.vecPairCsd = []) (hR : iNRows ≠ 0) : memoDone t iNRows iNFreqs = false := by
  simp [memoDone, h]
  omega

theorem zipWith_map_same {α β γ δ : Type} (k : β → γ → δ) (f : α → β) (g : α → γ)
    (l : List α) :
    List.zipWith k (l.map f) (l.map g) = l.map fun x => k (f x) (g x) := by
  induction l with
  | nil => rfl
  | cons a l ih => simp [ih]

/-- A non-memoized `compute` step on an accumulator holding a channel-indexed
pair list: the trial is filled in, the PSD is added entrywise, and each pair's
CSD matrix is added entrywise. -/
theorem compute_fresh_step (iNRows iNFreqs iNfft : ℕ) (tapers : TaperSet)
    (t : ConnectivityTrialData) (P : Mat ℝ) (Ms : ℕ → Mat ℂ)
    (ht : t.vecPairCsd = []) (hR : iNRows ≠ 0) (hPr : P.rows ≠ 0) (hPc : P.cols ≠ 0) :
    compute iNRows iNFreqs iNfft tapers t
      ⟨P, (List.range iNRows).map fun i => (i, Ms i)⟩
    = (processedTrial tapers iNfft iNRows iNFreqs t,
       ⟨Mat.add P (trialPsd tapers iNfft iNRows iNFreqs t.matData),
        (List.range iNRows).map fun i =>
          (i, Mat.addC (Ms i) (csdPairMat tapers iNfft iNRows iNFreqs t.matData i))⟩) := by
  have hmemo := memoDone_false_of_fresh t iNRows iNFreqs ht hR
  have hP : ¬(P.rows = 0 ∨ P.cols = 0) := by rintro (h | h) <;> [exact hPr h; exact hPc h]
  have hne : ((List.range iNRows).map fun i => (i, Ms i)).isEmpty = false := by
    simp [List.isEmpty_iff, List.range_eq_nil, hR]
  simp only [compute, hmemo, Bool.false_eq_true, if_false, processedTrial, ht,
    List.nil_append, mergePsd, hP, if_false, mergeCsd, hne,
    trialCsdPairs, zipWith_map_same]

/-- The very first `compute` step of a run (empty accumulator): the trial's
result is copied into the accumulator. -/
theorem compute_first_step (iNRows iNFreqs iNfft : ℕ) (tapers : TaperSet)
    (t : ConnectivityTrialData) (ht : t.vecPairCsd = []) (hR : iNRows ≠ 0) :
    compute iNRows iNFreqs iNfft tapers t emptyAcc
    = (processedTrial tapers iNfft iNRows iNFreqs t,
       ⟨trialPsd tapers iNfft iNRows iNFreqs t.matData,
        trialCsdPairs tapers iNfft iNRows iNFreqs t.matData⟩) := by
  have hmemo := memoDone_false_of_fresh t iNRows iNFreqs ht hR
  simp [compute, hmemo, processedTrial, ht, emptyAcc, mergePsd, Mat.emptyR, mergeCsd]

theorem Mat.eq_of_entry {α : Type} (A : Mat α) (f : ℕ → ℕ → α) (h : A.entry = f) :
    A = ⟨A.rows, A.cols, f⟩ := by
  cases A
  simpa using h

/-- Closed form of the trial-phase fold over fresh trials, starting from an
accumulator already holding a channel-indexed pair list: entrywise, the
accumulator ends up holding its old value plus the sum of the per-trial
PSD / CSD contributions, and every trial object is filled in. -/
theorem computeList_add_closed (iNRows iNFreqs iNfft : ℕ) (tapers : TaperSet)
    (hR : iNRows ≠ 0) (ts : List ConnectivityTrialData)
    (hts : ∀ u ∈ ts, u.vecPairCsd = [])
    (P : Mat ℝ) (hPr : P.rows ≠ 0) (hPc : P.cols ≠ 0) (Ms : ℕ → Mat ℂ) :
    computeList iNRows iNFreqs iNfft tapers ts
      ⟨P, (List.range iNRows).map fun i => (i, Ms i)⟩
    = (ts.map (processedTrial tapers iNfft iNRows iNFreqs),
       ⟨⟨P.rows, P.cols, fun i k => P.entry i k +
           (ts.map fun u => psdEntry tapers iNfft iNFreqs u.matData i k).sum⟩,
        (List.range iNRows).map fun i =>
          (i, ⟨(Ms i).rows, (Ms i).cols, fun j k => (Ms i).entry j k +
            (ts.map fun u =>
              (csdPairMat tapers iNfft iNRows iNFreqs u.matData i).entry j k).sum⟩)⟩) := by
  induction ts generalizing P Ms with
  | nil =>
    simp only [computeList, List.map_nil, List.sum_nil, add_zero]
  | cons t ts ih =>
    have ht : t.vecPairCsd = [] := hts t (List.mem_cons_self t ts)
    have hts' : ∀ u ∈ ts, u.vecPairCsd = [] := fun u hu => hts u (List.mem_cons_of_mem t hu)
    have hstep := compute_fresh_step iNRows iNFreqs iNfft tapers t P Ms ht hR hPr hPc
    have hrec := ih hts' (Mat.add P (trialPsd tapers iNfft iNRows iNFreqs t.matData))
      hPr hPc (fun i => Mat.addC (Ms i) (csdPairMat tapers iNfft iNRows iNFreqs t.matData i))
    simp only [computeList, hstep, hrec, List.map_cons, List.sum_cons]
    refine congrArg _ ?_
    refine congrArg₂ _ ?_ ?_
    · refine congrArg _ ?_
      funext i k
      simp [Mat.add, trialPsd, add_assoc]
    · refine List.map_congr_left fun i _ => ?_
      refine congrArg _ ?_
      refine congrArg _ ?_
      funext j k
      simp [Mat.addC, add_assoc]

/-- Closed form of the whole trial phase of a fresh run (empty accumulator,
nonempty fresh trial list): the accumulator holds the entrywise sums of all
per-trial contributions, in `iNRows x iNFreqs` matrices indexed by channel. -/
theorem computeList_closed (iNRows iNFreqs iNfft : ℕ) (tapers : TaperSet)
    (hR : iNRows ≠ 0) (hF : iNFreqs ≠ 0)
    (t : ConnectivityTrialData) (ts : List ConnectivityTrialData)
    (ht : t.vecPairCsd = []) (hts : ∀ u ∈ ts, u.vecPairCsd = []) :
    computeList iNRows iNFreqs iNfft tapers (t :: ts) emptyAcc
    = ((t :: ts).map (processedTrial tapers iNfft iNRows iNFreqs),
       ⟨⟨iNRows, iNFreqs, fun i k =>
           ((t :: ts).map fun u => psdEntry tapers iNfft iNFreqs u.matData i k).sum⟩,
        (List.range iNRows).map fun i =>
          (i, ⟨iNRows, iNFreqs, fun j k =>
            ((t :: ts).map fun u =>
              (csdPairMat tapers iNfft iNRows iNFreqs u.matData i).entry j k).sum⟩)⟩) := by
  have hfirst := compute_first_step iNRows iNFreqs iNfft tapers t ht hR
  have hrec := computeList_add_closed iNRows iNFreqs iNfft tapers hR ts hts
    (trialPsd tapers iNfft iNRows iNFreqs t.matData) (by simpa [trialPsd] using hR)
    (by simpa [trialPsd] using hF)
    (fun i => csdPairMat tapers iNfft iNRows iNFreqs t.matData i)
  simp only [computeList, hfirst, trialCsdPairs, hrec, List.map_cons, List.sum_cons]
  refine congrArg _ ?_
  refine congrArg₂ _ ?_ ?_
  · rfl
  · rfl

theorem allPairs_nodup (C : ℕ) : (allPairs C).Nodup := by
  rw [allPairs, List.nodup_flatMap]
  constructor
  · intro i _
    refine List.Nodup.map ?_ (List.nodup_range' _ _)
    intro a b hab
    simpa using hab
  · refine (List.pairwise_lt_range C).imp ?_
    intro a b hab x hxa hxb
    obtain ⟨ja, -, rfl⟩ := List.mem_map.mp hxa
    obtain ⟨jb, -, hjb⟩ := List.mem_map.mp hxb
    have : b = a ∧ jb = ja := by simpa using hjb
    omega

theorem allPairs_mem (C i j : ℕ) : (i, j) ∈ allPairs C ↔ i ≤ j ∧ j < C := by
  simp only [allPairs, List.mem_flatMap, List.mem_map, List.mem_range,
    List.mem_range'_1, Prod.mk.injEq]
  constructor
  · rintro ⟨a, ha, ja, ⟨hja1, hja2⟩, rfl, rfl⟩
    omega
  · rintro ⟨hij, hjC⟩
    exact ⟨i, by omega, j, ⟨by omega, by omega⟩, rfl, rfl⟩

theorem allPairs_length (C : ℕ) : (allPairs C).length = C * (C + 1) / 2 := by
  rw [allPairs, List.length_flatMap]
  simp only [Function.comp_def, List.length_map, List.length_range']
  have hsum : (List.map (fun i => C - i) (List.range C)).sum
      = ∑ i ∈ Finset.range C, (C - i) := rfl
  rw [hsum]
  have h2 : ∑ i ∈ Finset.range C, (C - i) = ∑ i ∈ Finset.range C, (i + 1) := by
    rw [← Finset.sum_range_reflect (fun j => C - j) C]
    exact Finset.sum_congr rfl fun j hj => by
      have := Finset.mem_range.mp hj; omega
  have h3 : ∑ i ∈ Finset.range C, (i + 1) = (∑ i ∈ Finset.range C, i) + C := by
    rw [Finset.sum_add_distrib]; simp
  have h4 := Finset.sum_range_id_mul_two C
  have h5 : C * (C + 1) = C * (C - 1) + 2 * C := by
    cases C with
    | zero => simp
    | succ n => simp only [Nat.succ_sub_one]; ring
  omega

/-- The edges the Real network phase builds from a channel-indexed pair list
of uniform extents: one edge `(i, j)` per `i ≤ j < C`, each with an
`F`-entry weight vector, appended after the network's existing edges. -/
theorem networkPhaseReal_shape (net : Network) (C F : ℕ) (Ms : ℕ → Mat ℂ)
    (psd : Mat ℝ) (hrows : ∀ i, (Ms i).rows = C) (hcols : ∀ i, (Ms i).cols = F) :
    ∃ w : ℕ → ℕ → ℕ → ℝ,
      (networkPhaseReal net ((List.range C).map fun i => (i, Ms i)) psd).edges
      = net.edges ++ (List.range C).flatMap fun i =>
          (List.range' i (C - i)).map fun j =>
            ⟨i, j, (List.range F).map (w i j)⟩ := by
  refine ⟨fun i j k => Complex.abs (cohyEntry (i, Ms i) psd j k), ?_⟩
  rw [networkPhaseReal_edges, List.flatMap_map]
  refine congrArg _ ?_
  refine congrArg₂ _ rfl ?_
  funext i
  rw [edgesReal, hrows, hcols]

/-- The same shape fact for the Imag network phase. -/
theorem networkPhaseImag_shape (net : Network) (C F : ℕ) (Ms : ℕ → Mat ℂ)
    (psd : Mat ℝ) (hrows : ∀ i, (Ms i).rows = C) (hcols : ∀ i, (Ms i).cols = F) :
    ∃ w : ℕ → ℕ → ℕ → ℝ,
      (networkPhaseImag net ((List.range C).map fun i => (i, Ms i)) psd).edges
      = net.edges ++ (List.range C).flatMap fun i =>
          (List.range' i (C - i)).map fun j =>
            ⟨i, j, (List.range F).map (w i j)⟩ := by
  refine ⟨fun i j k => (cohyEntry (i, Ms i) psd j k).im, ?_⟩
  rw [networkPhaseImag_edges, List.flatMap_map]
  refine congrArg _ ?_
  refine congrArg₂ _ rfl ?_
  funext i
  rw [edgesImag, hrows, hcols]

theorem networkPhaseReal_shape_of (net : Network) (C F : ℕ) (Ms : ℕ → Mat ℂ)
    (psd : Mat ℝ) (pairs : List (ℕ × Mat ℂ))
    (hp : pairs = (List.range C).map fun i => (i, Ms i))
    (hrows : ∀ i, (Ms i).rows = C) (hcols : ∀ i, (Ms i).cols = F) :
    ∃ w : ℕ → ℕ → ℕ → ℝ,
      (networkPhaseReal net pairs psd).edges
      = net.edges ++ (List.range C).flatMap fun i =>
          (List.range' i (C - i)).map fun j =>
            ⟨i, j, (List.range F).map (w i j)⟩ := by
  subst hp
  exact networkPhaseReal_shape net C F Ms psd hrows hcols

theorem networkPhaseImag_shape_of (net : Network) (C F : ℕ) (Ms : ℕ → Mat ℂ)
    (psd : Mat ℝ) (pairs : List (ℕ × Mat ℂ))
    (hp : pairs = (List.range C).map fun i => (i, Ms i))
    (hrows : ∀ i, (Ms i).rows = C) (hcols : ∀ i, (Ms i).cols = F) :
    ∃ w : ℕ → ℕ → ℕ → ℝ,
      (networkPhaseImag net pairs psd).edges
      = net.edges ++ (List.range C).flatMap fun i =>
          (List.range' i (C - i)).map fun j =>
            ⟨i, j, (List.range F).map (w i j)⟩ := by
  subst hp
  exact networkPhaseImag_shape net C F Ms psd hrows hcols

/-- Shape of the edge list a fresh `calculateReal` run appends: one edge per
`i ≤ j < C`, each weight vector with `floor(nfft/2) + 1` entries. -/
theorem calculateReal_run_shape (gen : ℕ → String → TaperSet) (net : Network)
    (s : ConnectivitySettings) (t0 : ConnectivityTrialData)
    (rest : List ConnectivityTrialData) (hs : s.m_dataList = t0 :: rest)
    (hfresh : ∀ u ∈ s.m_dataList, u.vecPairCsd = []) (hacc : s.data = emptyAcc)
    (hR : t0.matData.rows ≠ 0) :
    ∃ w : ℕ → ℕ → ℕ → ℝ,
      (calculateReal gen net s).1.edges
      = net.edges ++ (List.range t0.matData.rows).flatMap fun i =>
          (List.range' i (t0.matData.rows - i)).map fun j =>
            ⟨i, j, (List.range (effectiveNfft s.m_iNfft t0.matData.cols / 2 + 1)).map (w i j)⟩ := by
  have hfresh0 : t0.vecPairCsd = [] := hfresh t0 (by rw [hs]; exact List.mem_cons_self t0 rest)
  have hfreshr : ∀ u ∈ rest, u.vecPairCsd = [] :=
    fun u hu => hfresh u (by rw [hs]; exact List.mem_cons_of_mem t0 hu)
  have hclosed := computeList_closed t0.matData.rows
      (effectiveNfft s.m_iNfft t0.matData.cols / 2 + 1)
      (effectiveNfft s.m_iNfft t0.matData.cols)
      (gen t0.matData.cols s.m_sWindowType) hR (by omega) t0 rest hfresh0 hfreshr
  simp only [calculateReal, hs, hacc, hclosed]
  exact networkPhaseReal_shape_of net t0.matData.rows
      (effectiveNfft s.m_iNfft t0.matData.cols / 2 + 1) _ _ _ rfl
      (fun i => rfl) (fun i => rfl)

/-- Shape of the edge list a fresh `calculateImag` run appends. -/
theorem calculateImag_run_shape (gen : ℕ → String → TaperSet) (net : Network)
    (s : ConnectivitySettings) (t0 : ConnectivityTrialData)
    (rest : List ConnectivityTrialData) (hs : s.m_dataList = t0 :: rest)
    (hfresh : ∀ u ∈ s.m_dataList, u.vecPairCsd = []) (hacc : s.data = emptyAcc)
    (hR : t0.matData.rows ≠ 0) :
    ∃ w : ℕ → ℕ → ℕ → ℝ,
      (calculateImag gen net s).1.edges
      = net.edges ++ (List.range t0.matData.rows).flatMap fun i =>
          (List.range' i (t0.matData.rows - i)).map fun j =>
            ⟨i, j, (List.range (effectiveNfft s.m_iNfft t0.matData.cols / 2 + 1)).map (w i j)⟩ := by
  have hfresh0 : t0.vecPairCsd = [] := hfresh t0 (by rw [hs]; exact List.mem_cons_self t0 rest)
  have hfreshr : ∀ u ∈ rest, u.vecPairCsd = [] :=
    fun u hu => hfresh u (by rw [hs]; exact List.mem_cons_of_mem t0 hu)
  have hclosed := computeList_closed t0.matData.rows
      (effectiveNfft s.m_iNfft t0.matData.cols / 2 + 1)
      (effectiveNfft s.m_iNfft t0.matData.cols)
      (gen t0.matData.cols s.m_sWindowType) hR (by omega) t0 rest hfresh0 hfreshr
  simp only [calculateImag, hs, hacc, hclosed]
  exact networkPhaseImag_shape_of net t0.matData.rows
      (effectiveNfft s.m_iNfft t0.matData.cols / 2 + 1) _ _ _ rfl
      (fun i => rfl) (fun i => rfl)

theorem halveEnds_eq_div {α : Type} [Field α] (bE : Bool) (nF k : ℕ)
    (v : ℕ → α) :
    halveEnds bE nF v k
      = v k / ((if k = 0 then 2 else 1) * (if bE = true ∧ k = nF - 1 then 2 else 1)) := by
  simp only [halveEnds]
  split_ifs
  · rw [div_div]
  · rw [one_mul]
  · rw [mul_one]
  · rw [one_mul, div_one]

theorem weightSq_nonneg (tapers : TaperSet) : 0 ≤ weightSq tapers :=
  Finset.sum_nonneg fun _ _ => sq_nonneg _

/-- The code's CSD denominator `sqrt(s) * sqrt(s) / 2` equals the PSD
denominator `s / 2` (the sum of squared weights is nonnegative). -/
theorem denomCSD_eq_denomPSD (tapers : TaperSet) :
    denomCSD tapers = weightSq tapers / 2 := by
  rw [denomCSD, Real.mul_self_sqrt (weightSq_nonneg tapers)]

theorem psdEntry_eq_spec (tapers : TaperSet) (iNfft iNFreqs : ℕ) (A : Mat ℝ)
    (i k : ℕ) :
    psdEntry tapers iNfft iNFreqs A i k = specPsdEntry tapers iNfft iNFreqs A i k := by
  have hdiv : (if (iNfft % 2 == 0) = true ∧ k = iNFreqs - 1 then (2:ℝ) else 1)
      = (if iNfft % 2 = 0 ∧ k = iNFreqs - 1 then 2 else 1) :=
    if_congr (and_congr_left' beq_iff_eq) rfl rfl
  rw [psdEntry, halveEnds_eq_div, hdiv]
  rfl

theorem csdEntry_eq_spec (tapers : TaperSet) (iNfft iNFreqs : ℕ) (A : Mat ℝ)
    (i j k : ℕ) :
    csdEntry tapers iNfft iNFreqs A i j k
      = specCsdEntry tapers iNfft iNFreqs A i j k := by
  have hdiv : (if (iNfft % 2 == 0) = true ∧ k = iNFreqs - 1 then (2:ℂ) else 1)
      = (if iNfft % 2 = 0 ∧ k = iNFreqs - 1 then 2 else 1) :=
    if_congr (and_congr_left' beq_iff_eq) rfl rfl
  rw [csdEntry, halveEnds_eq_div, hdiv, specCsdEntry, specHalve, csdRaw,
    denomCSD_eq_denomPSD]
  push_cast [apply_ite (fun x : ℝ => (x : ℂ))]
  rfl

theorem networkPhaseReal_eq_foldl (net : Network) (pairs : List (ℕ × Mat ℂ))
    (psd : Mat ℝ) :
    networkPhaseReal net pairs psd
      = (pairs.flatMap fun p => edgesReal p psd).foldl Network.addEdge net := by
  induction pairs generalizing net with
  | nil => rfl
  | cons p pairs ih =>
    rw [networkPhaseReal, List.foldl_cons]
    have h1 : pairs.foldl (fun n q => computePSDCSDReal n q psd)
        (computePSDCSDReal net p psd)
        = networkPhaseReal (computePSDCSDReal net p psd) pairs psd := rfl
    rw [h1, ih, List.flatMap_cons, List.foldl_append, computePSDCSDReal]

theorem networkPhaseImag_eq_foldl (net : Network) (pairs : List (ℕ × Mat ℂ))
    (psd : Mat ℝ) :
    networkPhaseImag net pairs psd
      = (pairs.flatMap fun p => edgesImag p psd).foldl Network.addEdge net := by
  induction pairs generalizing net with
  | nil => rfl
  | cons p pairs ih =>
    rw [networkPhaseImag, List.foldl_cons]
    have h1 : pairs.foldl (fun n q => computePSDCSDImag n q psd)
        (computePSDCSDImag net p psd)
        = networkPhaseImag (computePSDCSDImag net p psd) pairs psd := rfl
    rw [h1, ih, List.flatMap_cons, List.foldl_append, computePSDCSDImag]

theorem add_nsmul_self {M : Type} [AddCommMonoid M] (c : M) (m : ℕ) :
    c + m • c = (m + 1) • c := by
  rw [succ_nsmul, add_comm]

/-- The factor `n` in the accumulated CSD cancels against the product of the
two square roots of the `n`-fold accumulated PSD entries. -/
theorem scale_cancel (n : ℕ) (hn : n ≠ 0) (c : ℂ) (pa pb : ℝ) :
    ((n • c : ℂ)) / ((Real.sqrt (n • pa) * Real.sqrt (n • pb) : ℝ) : ℂ)
      = c / ((Real.sqrt pa * Real.sqrt pb : ℝ) : ℂ) := by
  have hc : (0:ℝ) ≤ (n:ℝ) := Nat.cast_nonneg n
  rw [nsmul_eq_mul, nsmul_eq_mul, nsmul_eq_mul, Real.sqrt_mul hc pa,
    Real.sqrt_mul hc pb, mul_mul_mul_comm, Real.mul_self_sqrt hc]
  push_cast
  rw [mul_div_mul_left _ _ (by exact_mod_cast hn : ((n:ℕ):ℂ) ≠ 0)]

/-- A trial phase in which every trial hits the memoization early-return
changes nothing: neither the trials nor the accumulator. -/
theorem computeList_memoized (iNRows iNFreqs iNfft : ℕ) (tapers : TaperSet)
    (ts : List ConnectivityTrialData) (acc : AccumulatedSpectra)
    (h : ∀ u ∈ ts, memoDone u iNRows iNFreqs = true) :
    computeList iNRows iNFreqs iNfft tapers ts acc = (ts, acc) := by
  induction ts generalizing acc with
  | nil => rfl
  | cons u ts ih =>
    have hu : memoDone u iNRows iNFreqs = true := h u (List.mem_cons_self u ts)
    have hts : ∀ v ∈ ts, memoDone v iNRows iNFreqs = true :=
      fun v hv => h v (List.mem_cons_of_mem u hv)
    simp only [computeList, compute, hu, if_true, ih acc hts]

/-! ## Claim theorems -/

/-- C8: a trial object whose stored result already has the expected shape
(CSD pair list of length `iNRows`, PSD of extents `iNRows x iNFreqs`) makes
`Coherency::compute` return without recomputation, leaving the trial's
stored PSD and CSD — and the accumulator — unchanged. -/
theorem claim_C8_memoized_compute_identity (iNRows iNFreqs iNfft : ℕ)
    (tapers : TaperSet) (t : ConnectivityTrialData) (acc : AccumulatedSpectra)
    (h1 : t.vecPairCsd.length = iNRows) (h2 : t.matPsd.rows = iNRows)
    (h3 : t.matPsd.cols = iNFreqs) :
    compute iNRows iNFreqs iNfft tapers t acc = (t, acc) := by
  simp [compute, memoDone, h1, h2, h3]

/-- C8 witness: a concrete memoized trial (1 channel, 1 bin) is returned
unchanged together with the accumulator. -/
theorem claim_C8_witness :
    compute 1 1 1 ⟨⟨1, 1, fun _ _ => 1⟩, fun _ => 1⟩
      ⟨⟨1, 1, fun _ _ => 0⟩, ⟨1, 1, fun _ _ => 0⟩, [(0, ⟨1, 1, fun _ _ => 0⟩)]⟩
      emptyAcc
    = (⟨⟨1, 1, fun _ _ => 0⟩, ⟨1, 1, fun _ _ => 0⟩, [(0, ⟨1, 1, fun _ _ => 0⟩)]⟩,
       emptyAcc) :=
  claim_C8_memoized_compute_identity 1 1 1 _ _ _ rfl rfl rfl

/-- C7: with an empty trial collection, `calculateReal`, `calculateImag` and
`calculate` all return immediately: the output network gains no edges, the
out-parameter of `calculate` and the whole settings object (accumulator
included) are untouched, and the result does not depend on the taper
generator (no tapers are generated). -/
theorem claim_C7_empty_input_returns (gen gen' : ℕ → String → TaperSet)
    (net : Network) (vec : List (ℕ × Mat ℂ)) (s : ConnectivitySettings)
    (h : s.m_dataList = []) :
    calculateReal gen net s = (net, s)
    ∧ calculateImag gen net s = (net, s)
    ∧ calculate gen vec s = (vec, s)
    ∧ calculateReal gen net s = calculateReal gen' net s := by
  refine ⟨?_, ?_, ?_, ?_⟩ <;> simp [calculateReal, calculateImag, calculate, h]

/-- C7 witness: the concrete empty run (no trials) leaves a concrete
network, coherency vector and settings unchanged, for two different taper
generators. -/
theorem claim_C7_witness :
    calculateReal (fun _ _ => ⟨⟨1, 1, fun _ _ => 1⟩, fun _ => 1⟩) emptyNetwork
        ⟨4, "hanning", [], emptyAcc⟩
      = (emptyNetwork, ⟨4, "hanning", [], emptyAcc⟩)
    ∧ calculateImag (fun _ _ => ⟨⟨1, 1, fun _ _ => 1⟩, fun _ => 1⟩) emptyNetwork
        ⟨4, "hanning", [], emptyAcc⟩
      = (emptyNetwork, ⟨4, "hanning", [], emptyAcc⟩)
    ∧ calculate (fun _ _ => ⟨⟨1, 1, fun _ _ => 1⟩, fun _ => 1⟩) []
        ⟨4, "hanning", [], emptyAcc⟩
      = ([], ⟨4, "hanning", [], emptyAcc⟩)
    ∧ calculateReal (fun _ _ => ⟨⟨1, 1, fun _ _ => 1⟩, fun _ => 1⟩) emptyNetwork
        ⟨4, "hanning", [], emptyAcc⟩
      = calculateReal (fun _ _ => ⟨⟨2, 2, fun _ _ => 0⟩, fun _ => 0⟩) emptyNetwork
          ⟨4, "hanning", [], emptyAcc⟩ :=
  claim_C7_empty_input_returns _ _ emptyNetwork [] ⟨4, "hanning", [], emptyAcc⟩ rfl

/-- C9: for a self-pair edge (equal endpoints), the three-way attachment
appends the edge's index to node `i`'s adjacency list twice (once via each
endpoint append), appends the edge itself to the global edge list once, and
touches no other node's adjacency list. -/
theorem claim_C9_selfloop_double_adjacency (net : Network) (e : NetworkEdge)
    (i : ℕ) (h1 : e.startId = i) (h2 : e.endId = i) :
    (net.addEdge e).adj i = net.adj i ++ [net.edges.length, net.edges.length]
    ∧ (net.addEdge e).edges = net.edges ++ [e]
    ∧ ∀ n, n ≠ i → (net.addEdge e).adj n = net.adj n := by
  refine ⟨?_, rfl, ?_⟩
  · simp [Network.addEdge, h1, h2]
  · intro n hn
    simp [Network.addEdge, h1, h2, hn]

/-- C9 witness: appending a concrete self-loop edge `(0, 0)` to the empty
network puts index 0 twice into node 0's adjacency list, once into the edge
list, and leaves node 1's adjacency list empty. -/
theorem claim_C9_witness :
    (emptyNetwork.addEdge ⟨0, 0, [1]⟩).adj 0
        = emptyNetwork.adj 0 ++ [emptyNetwork.edges.length, emptyNetwork.edges.length]
    ∧ (emptyNetwork.addEdge ⟨0, 0, [1]⟩).edges = emptyNetwork.edges ++ [⟨0, 0, [1]⟩]
    ∧ ∀ n, n ≠ 0 → (emptyNetwork.addEdge ⟨0, 0, [1]⟩).adj n = emptyNetwork.adj n :=
  claim_C9_selfloop_double_adjacency emptyNetwork ⟨0, 0, [1]⟩ 0 rfl rfl

/-- C1: for a trial processed by `Coherency::compute`, the stored PSD entry
of channel `i` at bin `k` and the stored CSD entry of pair `(i, j)`, `i ≤ j`,
at bin `k` equal the spec formulas: demeaned, taper-windowed, half-spectrum
FFT of length `nfft`, weight-scaled spectra; PSD = sum over tapers of
squared magnitudes over (sum of squared weights / 2); CSD = sum over tapers
of `spectrum_i * conj(spectrum_j)` over the same denominator; bin 0 halved,
and the last bin halved when `nfft` is even, all other bins unhalved. -/
theorem claim_C1_compute_matches_spec (iNRows iNFreqs iNfft : ℕ)
    (tapers : TaperSet) (t : ConnectivityTrialData) (acc : AccumulatedSpectra)
    (i j k : ℕ) (hfresh : t.vecPairCsd = []) (hiR : i < iNRows) (hij : i ≤ j)
    (hjR : j < iNRows) (hk : k < iNFreqs) :
    (compute iNRows iNFreqs iNfft tapers t acc).1.matPsd.entry i k
      = specPsdEntry tapers iNfft iNFreqs t.matData i k
    ∧ ((compute iNRows iNFreqs iNfft tapers t acc).1.vecPairCsd.getD i
        (0, Mat.emptyC)).1 = i
    ∧ ((compute iNRows iNFreqs iNfft tapers t acc).1.vecPairCsd.getD i
        (0, Mat.emptyC)).2.entry j k
      = specCsdEntry tapers iNfft iNFreqs t.matData i j k := by
  have hmemo := memoDone_false_of_fresh t iNRows iNFreqs hfresh (by omega)
  have hget : (compute iNRows iNFreqs iNfft tapers t acc).1.vecPairCsd.getD i
      (0, Mat.emptyC) = (i, csdPairMat tapers iNfft iNRows iNFreqs t.matData i) := by
    simp only [compute, hmemo, Bool.false_eq_true, if_false, hfresh,
      List.nil_append, trialCsdPairs]
    simp [List.getD_eq_getElem?_getD, List.getElem?_map, List.getElem?_range hiR]
  refine ⟨?_, ?_, ?_⟩
  · simp only [compute, hmemo, Bool.false_eq_true, if_false, trialPsd]
    exact psdEntry_eq_spec tapers iNfft iNFreqs t.matData i k
  · rw [hget]
  · rw [hget]
    simp only [csdPairMat, if_pos hij]
    exact csdEntry_eq_spec tapers iNfft iNFreqs t.matData i j k

/-- C1 witness: a concrete fresh 2-channel trial at concrete indices
(`i = 0 ≤ j = 1`, bin `k = 1` of 2): the computed PSD and CSD entries equal
the spec formulas. -/
theorem claim_C1_witness :
    (compute 2 2 2 ⟨⟨1, 2, fun _ _ => 1⟩, fun _ => 1⟩
        ⟨⟨2, 2, fun a b => (a + b : ℝ)⟩, Mat.emptyR, []⟩ emptyAcc).1.matPsd.entry 0 1
      = specPsdEntry ⟨⟨1, 2, fun _ _ => 1⟩, fun _ => 1⟩ 2 2
          ⟨2, 2, fun a b => (a + b : ℝ)⟩ 0 1
    ∧ ((compute 2 2 2 ⟨⟨1, 2, fun _ _ => 1⟩, fun _ => 1⟩
        ⟨⟨2, 2, fun a b => (a + b : ℝ)⟩, Mat.emptyR, []⟩ emptyAcc).1.vecPairCsd.getD 0
        (0, Mat.emptyC)).1 = 0
    ∧ ((compute 2 2 2 ⟨⟨1, 2, fun _ _ => 1⟩, fun _ => 1⟩
        ⟨⟨2, 2, fun a b => (a + b : ℝ)⟩, Mat.emptyR, []⟩ emptyAcc).1.vecPairCsd.getD 0
        (0, Mat.emptyC)).2.entry 1 1
      = specCsdEntry ⟨⟨1, 2, fun _ _ => 1⟩, fun _ => 1⟩ 2 2
          ⟨2, 2, fun a b => (a + b : ℝ)⟩ 0 1 1 :=
  claim_C1_compute_matches_spec 2 2 2 ⟨⟨1, 2, fun _ _ => 1⟩, fun _ => 1⟩
    ⟨⟨2, 2, fun a b => (a + b : ℝ)⟩, Mat.emptyR, []⟩ emptyAcc 0 1 1 rfl
    (by decide) (by decide) (by decide) (by decide)

/-- C2: a valid fresh run (Real or Imag variant) produces a network with
exactly one edge per unordered channel pair `(i, j)`, `i ≤ j < C`
(self-pairs included), no duplicate for `(j, i)`, `C * (C + 1) / 2` edges in
total, and every edge weight vector of the run's frequency-bin length. -/
theorem claim_C2_one_edge_per_unordered_pair (gen : ℕ → String → TaperSet)
    (s : ConnectivitySettings) (t0 : ConnectivityTrialData)
    (rest : List ConnectivityTrialData) (hs : s.m_dataList = t0 :: rest)
    (hfresh : ∀ u ∈ s.m_dataList, u.vecPairCsd = []) (hacc : s.data = emptyAcc)
    (hR : t0.matData.rows ≠ 0) :
    ((calculateReal gen emptyNetwork s).1.edges.map fun e => (e.startId, e.endId))
        = allPairs t0.matData.rows
    ∧ ((calculateImag gen emptyNetwork s).1.edges.map fun e => (e.startId, e.endId))
        = allPairs t0.matData.rows
    ∧ (allPairs t0.matData.rows).Nodup
    ∧ (∀ i j : ℕ, ((i, j) ∈ allPairs t0.matData.rows ↔ i ≤ j ∧ j < t0.matData.rows))
    ∧ (calculateReal gen emptyNetwork s).1.edges.length
        = t0.matData.rows * (t0.matData.rows + 1) / 2
    ∧ (∀ e ∈ (calculateReal gen emptyNetwork s).1.edges,
        e.matWeight.length = effectiveNfft s.m_iNfft t0.matData.cols / 2 + 1)
    ∧ (∀ e ∈ (calculateImag gen emptyNetwork s).1.edges,
        e.matWeight.length = effectiveNfft s.m_iNfft t0.matData.cols / 2 + 1) := by
  obtain ⟨w, hw⟩ := calculateReal_run_shape gen emptyNetwork s t0 rest hs hfresh hacc hR
  obtain ⟨w', hw'⟩ := calculateImag_run_shape gen emptyNetwork s t0 rest hs hfresh hacc hR
  have hmapR : ((calculateReal gen emptyNetwork s).1.edges.map
      fun e => (e.startId, e.endId)) = allPairs t0.matData.rows := by
    rw [hw]
    simp [emptyNetwork, List.map_flatMap, List.map_map, allPairs, Function.comp_def]
  have hmapI : ((calculateImag gen emptyNetwork s).1.edges.map
      fun e => (e.startId, e.endId)) = allPairs t0.matData.rows := by
    rw [hw']
    simp [emptyNetwork, List.map_flatMap, List.map_map, allPairs, Function.comp_def]
  refine ⟨hmapR, hmapI, allPairs_nodup _, fun i j => allPairs_mem _ i j, ?_, ?_, ?_⟩
  · have hlen : (calculateReal gen emptyNetwork s).1.edges.length
        = ((calculateReal gen emptyNetwork s).1.edges.map
            fun e => (e.startId, e.endId)).length := (List.length_map _ _).symm
    rw [hlen, hmapR, allPairs_length]
  · intro e he
    rw [hw] at he
    simp only [emptyNetwork, List.nil_append, List.mem_flatMap, List.mem_map] at he
    obtain ⟨i, -, j, -, rfl⟩ := he
    simp
  · intro e he
    rw [hw'] at he
    simp only [emptyNetwork, List.nil_append, List.mem_flatMap, List.mem_map] at he
    obtain ⟨i, -, j, -, rfl⟩ := he
    simp

/-- C2 witness: a concrete fresh 3-channel, 1-trial run yields exactly the 6
unordered pairs (map of the edge list to endpoint pairs equals
`allPairs 3`) and 6 edges. -/
theorem claim_C2_witness :
    ((calculateReal (fun _ _ => ⟨⟨1, 1, fun _ _ => 1⟩, fun _ => 1⟩) emptyNetwork
        ⟨1, "hanning", [⟨⟨3, 1, fun _ _ => 0⟩, Mat.emptyR, []⟩], emptyAcc⟩).1.edges.map
      fun e => (e.startId, e.endId)) = allPairs 3
    ∧ (calculateReal (fun _ _ => ⟨⟨1, 1, fun _ _ => 1⟩, fun _ => 1⟩) emptyNetwork
        ⟨1, "hanning", [⟨⟨3, 1, fun _ _ => 0⟩, Mat.emptyR, []⟩], emptyAcc⟩).1.edges.length = 6 := by
  have h := claim_C2_one_edge_per_unordered_pair
    (fun _ _ => ⟨⟨1, 1, fun _ _ => 1⟩, fun _ => 1⟩)
    ⟨1, "hanning", [⟨⟨3, 1, fun _ _ => 0⟩, Mat.emptyR, []⟩], emptyAcc⟩
    ⟨⟨3, 1, fun _ _ => 0⟩, Mat.emptyR, []⟩ [] rfl
    (by intro u hu; rw [List.mem_singleton] at hu; subst hu; rfl) rfl (by decide)
  exact ⟨h.1, h.2.2.2.2.1⟩

/-- C4: running the pipeline on `N ≥ 1` copies of the same trial yields
exactly the same final network (hence the same normalized connectivity
weight for every pair and bin) as running it on the trial alone: the factor
`N` in the accumulated CSD cancels against the product of the two
square-rooted accumulated PSD rows in the quotient. -/
theorem claim_C4_trial_count_invariance (gen : ℕ → String → TaperSet)
    (net : Network) (nfft0 : ℤ) (wname : String) (t : ConnectivityTrialData)
    (N : ℕ) (hN : 1 ≤ N) (hfresh : t.vecPairCsd = []) (hR : t.matData.rows ≠ 0) :
    (calculateReal gen net ⟨nfft0, wname, List.replicate N t, emptyAcc⟩).1
      = (calculateReal gen net ⟨nfft0, wname, [t], emptyAcc⟩).1
    ∧ (calculateImag gen net ⟨nfft0, wname, List.replicate N t, emptyAcc⟩).1
      = (calculateImag gen net ⟨nfft0, wname, [t], emptyAcc⟩).1 := by
  obtain ⟨m, rfl⟩ : ∃ m, N = m + 1 := ⟨N - 1, by omega⟩
  have hrepl : List.replicate (m + 1) t = t :: List.replicate m t := rfl
  have hfreshRest : ∀ u ∈ List.replicate m t, u.vecPairCsd = [] := fun u hu => by
    rw [List.eq_of_mem_replicate hu]; exact hfresh
  have hclosedN := computeList_closed t.matData.rows
      (effectiveNfft nfft0 t.matData.cols / 2 + 1) (effectiveNfft nfft0 t.matData.cols)
      (gen t.matData.cols wname) hR (by omega) t (List.replicate m t) hfresh hfreshRest
  have hclosed1 := computeList_closed t.matData.rows
      (effectiveNfft nfft0 t.matData.cols / 2 + 1) (effectiveNfft nfft0 t.matData.cols)
      (gen t.matData.cols wname) hR (by omega) t [] hfresh (by simp)
  constructor
  · simp only [calculateReal, hrepl, hclosedN, hclosed1]
    rw [networkPhaseReal_eq_foldl, networkPhaseReal_eq_foldl]
    refine congrArg (List.foldl Network.addEdge net) ?_
    rw [List.flatMap_map, List.flatMap_map]
    refine congrArg _ ?_
    funext i
    simp only [edgesReal]
    refine congrArg₂ _ ?_ rfl
    funext j
    refine congrArg (NetworkEdge.mk i j) ?_
    refine congrArg₂ _ ?_ rfl
    funext k
    refine congrArg _ ?_
    simp only [cohyEntry, Mat.cwiseSqrt, List.map_cons, List.map_replicate,
      List.sum_cons, List.sum_replicate, List.map_nil, List.sum_nil, add_zero]
    simp only [add_nsmul_self]
    exact scale_cancel (m + 1) (by omega) _ _ _
  · simp only [calculateImag, hrepl, hclosedN, hclosed1]
    rw [networkPhaseImag_eq_foldl, networkPhaseImag_eq_foldl]
    refine congrArg (List.foldl Network.addEdge net) ?_
    rw [List.flatMap_map, List.flatMap_map]
    refine congrArg _ ?_
    funext i
    simp only [edgesImag]
    refine congrArg₂ _ ?_ rfl
    funext j
    refine congrArg (NetworkEdge.mk i j) ?_
    refine congrArg₂ _ ?_ rfl
    funext k
    refine congrArg _ ?_
    simp only [cohyEntry, Mat.cwiseSqrt, List.map_cons, List.map_replicate,
      List.sum_cons, List.sum_replicate, List.map_nil, List.sum_nil, add_zero]
    simp only [add_nsmul_self]
    exact scale_cancel (m + 1) (by omega) _ _ _

/-- C4 witness: a concrete fresh 1-channel, 2-sample trial replicated 3
times yields the same final network as the single trial, for both edge
builders. -/
theorem claim_C4_witness :
    (calculateReal (fun _ _ => ⟨⟨1, 2, fun _ _ => 1⟩, fun _ => 1⟩) emptyNetwork
        ⟨2, "hanning", List.replicate 3 ⟨⟨1, 2, fun a b => (a + 2 * b : ℝ)⟩, Mat.emptyR, []⟩,
         emptyAcc⟩).1
      = (calculateReal (fun _ _ => ⟨⟨1, 2, fun _ _ => 1⟩, fun _ => 1⟩) emptyNetwork
          ⟨2, "hanning", [⟨⟨1, 2, fun a b => (a + 2 * b : ℝ)⟩, Mat.emptyR, []⟩],
           emptyAcc⟩).1
    ∧ (calculateImag (fun _ _ => ⟨⟨1, 2, fun _ _ => 1⟩, fun _ => 1⟩) emptyNetwork
        ⟨2, "hanning", List.replicate 3 ⟨⟨1, 2, fun a b => (a + 2 * b : ℝ)⟩, Mat.emptyR, []⟩,
         emptyAcc⟩).1
      = (calculateImag (fun _ _ => ⟨⟨1, 2, fun _ _ => 1⟩, fun _ => 1⟩) emptyNetwork
          ⟨2, "hanning", [⟨⟨1, 2, fun a b => (a + 2 * b : ℝ)⟩, Mat.emptyR, []⟩],
           emptyAcc⟩).1 :=
  claim_C4_trial_count_invariance (fun _ _ => ⟨⟨1, 2, fun _ _ => 1⟩, fun _ => 1⟩)
    emptyNetwork 2 "hanning" ⟨⟨1, 2, fun a b => (a + 2 * b : ℝ)⟩, Mat.emptyR, []⟩ 3
    (by decide) rfl (by decide)

/-- C5: the effective FFT length is the configured one when it is at least
the first trial's sample count and the sample count otherwise, and the
frequency-bin count `floor(nfft/2) + 1` is the column count of the
accumulated PSD, of every trial PSD, of every accumulated CSD pair matrix,
and the length of every edge weight vector of the run. -/
theorem claim_C5_effective_nfft_and_bin_count (gen : ℕ → String → TaperSet)
    (s : ConnectivitySettings) (t0 : ConnectivityTrialData)
    (rest : List ConnectivityTrialData) (hs : s.m_dataList = t0 :: rest)
    (hfresh : ∀ u ∈ s.m_dataList, u.vecPairCsd = []) (hacc : s.data = emptyAcc)
    (hR : t0.matData.rows ≠ 0) :
    effectiveNfft s.m_iNfft t0.matData.cols
      = (if (t0.matData.cols : ℤ) ≤ s.m_iNfft then s.m_iNfft.toNat else t0.matData.cols)
    ∧ (calculateReal gen emptyNetwork s).2.data.matPsdSum.rows = t0.matData.rows
    ∧ (calculateReal gen emptyNetwork s).2.data.matPsdSum.cols
        = effectiveNfft s.m_iNfft t0.matData.cols / 2 + 1
    ∧ (∀ u ∈ (calculateReal gen emptyNetwork s).2.m_dataList,
        u.matPsd.rows = t0.matData.rows
        ∧ u.matPsd.cols = effectiveNfft s.m_iNfft t0.matData.cols / 2 + 1)
    ∧ (∀ p ∈ (calculateReal gen emptyNetwork s).2.data.vecPairCsdSum,
        p.2.rows = t0.matData.rows
        ∧ p.2.cols = effectiveNfft s.m_iNfft t0.matData.cols / 2 + 1)
    ∧ (∀ e ∈ (calculateReal gen emptyNetwork s).1.edges,
        e.matWeight.length = effectiveNfft s.m_iNfft t0.matData.cols / 2 + 1) := by
  have hfresh0 : t0.vecPairCsd = [] := hfresh t0 (by rw [hs]; exact List.mem_cons_self t0 rest)
  have hfreshr : ∀ u ∈ rest, u.vecPairCsd = [] :=
    fun u hu => hfresh u (by rw [hs]; exact List.mem_cons_of_mem t0 hu)
  have hclosed := computeList_closed t0.matData.rows
      (effectiveNfft s.m_iNfft t0.matData.cols / 2 + 1)
      (effectiveNfft s.m_iNfft t0.matData.cols)
      (gen t0.matData.cols s.m_sWindowType) hR (by omega) t0 rest hfresh0 hfreshr
  refine ⟨?_, ?_, ?_, ?_, ?_, ?_⟩
  · by_cases h : s.m_iNfft < (t0.matData.cols : ℤ)
    · rw [effectiveNfft, if_pos h, if_neg (by omega)]
    · rw [effectiveNfft, if_neg h, if_pos (by omega)]
  · simp [calculateReal, hs, hacc, hclosed, Mat.cwiseSqrt]
  · simp [calculateReal, hs, hacc, hclosed, Mat.cwiseSqrt]
  · intro u hu
    simp only [calculateReal, hs, hacc, hclosed] at hu
    simp only [List.mem_map] at hu
    obtain ⟨v, -, rfl⟩ := hu
    exact ⟨rfl, rfl⟩
  · intro p hp
    simp only [calculateReal, hs, hacc, hclosed] at hp
    simp only [List.mem_map] at hp
    obtain ⟨i, -, rfl⟩ := hp
    exact ⟨rfl, rfl⟩
  · obtain ⟨w, hw⟩ := calculateReal_run_shape gen emptyNetwork s t0 rest hs hfresh hacc hR
    intro e he
    rw [hw] at he
    simp only [emptyNetwork, List.nil_append, List.mem_flatMap, List.mem_map] at he
    obtain ⟨i, -, j, -, rfl⟩ := he
    simp

/-- C5 witness: a concrete 2-channel 4-sample trial with configured
`nfft = 3 < 4`: the effective FFT length is raised to 4 and the accumulated
PSD has `floor(4/2) + 1 = 3` columns. -/
theorem claim_C5_witness :
    effectiveNfft 3 4 = (if ((4 : ℕ) : ℤ) ≤ (3 : ℤ) then (3 : ℤ).toNat else 4)
    ∧ (calculateReal (fun _ _ => ⟨⟨1, 4, fun _ _ => 1⟩, fun _ => 1⟩) emptyNetwork
        ⟨3, "hanning", [⟨⟨2, 4, fun _ _ => 0⟩, Mat.emptyR, []⟩], emptyAcc⟩).2.data.matPsdSum.cols
      = effectiveNfft 3 4 / 2 + 1 := by
  have h := claim_C5_effective_nfft_and_bin_count
    (fun _ _ => ⟨⟨1, 4, fun _ _ => 1⟩, fun _ => 1⟩)
    ⟨3, "hanning", [⟨⟨2, 4, fun _ _ => 0⟩, Mat.emptyR, []⟩], emptyAcc⟩
    ⟨⟨2, 4, fun _ _ => 0⟩, Mat.emptyR, []⟩ [] rfl
    (by intro u hu; rw [List.mem_singleton] at hu; subst hu; rfl) rfl (by decide)
  exact ⟨h.1, h.2.2.1⟩

/-- C6 counterexample: a run with a non-positive configured FFT length
(`m_iNfft = -1`) does not fail and does build a graph — the final network of
a concrete 1-channel run has exactly one edge, refuting "the run fails
synchronously ... and no graph is built from such input". -/
theorem claim_C6_counterexample :
    (calculateReal (fun _ _ => ⟨⟨1, 1, fun _ _ => 1⟩, fun _ => 1⟩) emptyNetwork
        ⟨-1, "unknownWindow", [⟨⟨1, 1, fun _ _ => 0⟩, Mat.emptyR, []⟩], emptyAcc⟩).1.edges.length
      = 1 := by
  obtain ⟨w, hw⟩ := calculateReal_run_shape
    (fun _ _ => ⟨⟨1, 1, fun _ _ => 1⟩, fun _ => 1⟩) emptyNetwork
    ⟨-1, "unknownWindow", [⟨⟨1, 1, fun _ _ => 0⟩, Mat.emptyR, []⟩], emptyAcc⟩
    ⟨⟨1, 1, fun _ _ => 0⟩, Mat.emptyR, []⟩ [] rfl
    (by intro u hu; rw [List.mem_singleton] at hu; subst hu; rfl) rfl (by decide)
  rw [hw]
  simp [emptyNetwork, List.length_flatMap, List.range_succ]

/-- C6 as amended: the code checks only for an empty trial list; a
non-positive configured FFT length is not an error — it is raised to the
first trial's sample count and the run proceeds to build the full
`C * (C + 1) / 2`-edge graph. -/
theorem claim_C6_amended_no_validation (gen : ℕ → String → TaperSet)
    (s : ConnectivitySettings) (t0 : ConnectivityTrialData)
    (rest : List ConnectivityTrialData) (hs : s.m_dataList = t0 :: rest)
    (hfresh : ∀ u ∈ s.m_dataList, u.vecPairCsd = []) (hacc : s.data = emptyAcc)
    (hR : t0.matData.rows ≠ 0) (hn : s.m_iNfft ≤ 0) :
    effectiveNfft s.m_iNfft t0.matData.cols = t0.matData.cols
    ∧ (calculateReal gen emptyNetwork s).1.edges.length
        = t0.matData.rows * (t0.matData.rows + 1) / 2
    ∧ (calculateReal gen emptyNetwork s).1.edges ≠ [] := by
  obtain ⟨w, hw⟩ := calculateReal_run_shape gen emptyNetwork s t0 rest hs hfresh hacc hR
  have hmapR : ((calculateReal gen emptyNetwork s).1.edges.map
      fun e => (e.startId, e.endId)) = allPairs t0.matData.rows := by
    rw [hw]
    simp [emptyNetwork, List.map_flatMap, List.map_map, allPairs, Function.comp_def]
  have hlen : (calculateReal gen emptyNetwork s).1.edges.length
      = t0.matData.rows * (t0.matData.rows + 1) / 2 := by
    have h1 : (calculateReal gen emptyNetwork s).1.edges.length
        = ((calculateReal gen emptyNetwork s).1.edges.map
            fun e => (e.startId, e.endId)).length := (List.length_map _ _).symm
    rw [h1, hmapR, allPairs_length]
  refine ⟨?_, hlen, ?_⟩
  · rw [effectiveNfft]
    split <;> omega
  · have h2 : 1 * 2 ≤ t0.matData.rows * (t0.matData.rows + 1) :=
      Nat.mul_le_mul (by omega) (by omega)
    intro hnil
    rw [hnil] at hlen
    simp only [List.length_nil] at hlen
    omega

/-- C6 amended witness: a concrete 2-channel run with configured
`m_iNfft = 0` proceeds: the effective FFT length becomes the sample count 5
and the graph gets `2 * 3 / 2 = 3` edges. -/
theorem claim_C6_amended_witness :
    effectiveNfft 0 5 = 5
    ∧ (calculateReal (fun _ _ => ⟨⟨1, 5, fun _ _ => 1⟩, fun _ => 1⟩) emptyNetwork
        ⟨0, "hanning", [⟨⟨2, 5, fun _ _ => 0⟩, Mat.emptyR, []⟩], emptyAcc⟩).1.edges.length = 3 := by
  have h := claim_C6_amended_no_validation
    (fun _ _ => ⟨⟨1, 5, fun _ _ => 1⟩, fun _ => 1⟩)
    ⟨0, "hanning", [⟨⟨2, 5, fun _ _ => 0⟩, Mat.emptyR, []⟩], emptyAcc⟩
    ⟨⟨2, 5, fun _ _ => 0⟩, Mat.emptyR, []⟩ [] rfl
    (by intro u hu; rw [List.mem_singleton] at hu; subst hu; rfl) rfl (by decide) (by decide)
  exact ⟨h.1, h.2.1⟩

/-- C3: the first merge of a trial result copies it into the accumulator,
every later merge adds the trial PSD matrix and each pair's CSD matrix
entrywise, and in `calculateReal` the entrywise square root is applied to
`matPsdSum` exactly once, after the whole trial phase (the stored
`matPsdSum` is the square root of the trial-phase fold's sum). -/
theorem claim_C3_merge_then_sqrt_once (iNRows iNFreqs iNfft : ℕ)
    (tapers : TaperSet) (t : ConnectivityTrialData)
    (acc1 acc2 : AccumulatedSpectra) (gen : ℕ → String → TaperSet)
    (net : Network) (s : ConnectivitySettings) (t0 : ConnectivityTrialData)
    (rest : List ConnectivityTrialData)
    (hmemo : memoDone t iNRows iNFreqs = false) (hfresh : t.vecPairCsd = [])
    (h1r : acc1.matPsdSum.rows = 0) (h1c : acc1.vecPairCsdSum = [])
    (h2r : acc2.matPsdSum.rows ≠ 0) (h2c : acc2.matPsdSum.cols ≠ 0)
    (h2l : acc2.vecPairCsdSum ≠ []) (hs : s.m_dataList = t0 :: rest) :
    (compute iNRows iNFreqs iNfft tapers t acc1).2
      = ⟨trialPsd tapers iNfft iNRows iNFreqs t.matData,
         trialCsdPairs tapers iNfft iNRows iNFreqs t.matData⟩
    ∧ (compute iNRows iNFreqs iNfft tapers t acc2).2
      = ⟨acc2.matPsdSum.add (trialPsd tapers iNfft iNRows iNFreqs t.matData),
         List.zipWith (fun a b => (a.1, Mat.addC a.2 b.2)) acc2.vecPairCsdSum
           (trialCsdPairs tapers iNfft iNRows iNFreqs t.matData)⟩
    ∧ (calculateReal gen net s).2.data.matPsdSum
      = ((computeList t0.matData.rows
            (effectiveNfft s.m_iNfft t0.matData.cols / 2 + 1)
            (effectiveNfft s.m_iNfft t0.matData.cols)
            (gen t0.matData.cols s.m_sWindowType)
            s.m_dataList s.data).2.matPsdSum).cwiseSqrt
    ∧ (calculateReal gen net s).1
      = networkPhaseReal net
          ((computeList t0.matData.rows
            (effectiveNfft s.m_iNfft t0.matData.cols / 2 + 1)
            (effectiveNfft s.m_iNfft t0.matData.cols)
            (gen t0.matData.cols s.m_sWindowType)
            s.m_dataList s.data).2.vecPairCsdSum)
          (((computeList t0.matData.rows
            (effectiveNfft s.m_iNfft t0.matData.cols / 2 + 1)
            (effectiveNfft s.m_iNfft t0.matData.cols)
            (gen t0.matData.cols s.m_sWindowType)
            s.m_dataList s.data).2.matPsdSum).cwiseSqrt) := by
  refine ⟨?_, ?_, ?_, ?_⟩
  · simp [compute, hmemo, hfresh, mergePsd, mergeCsd, h1r, h1c]
  · have hne : ¬(acc2.matPsdSum.rows = 0 ∨ acc2.matPsdSum.cols = 0) := by
      rintro (h | h) <;> [exact h2r h; exact h2c h]
    simp [compute, hmemo, hfresh, mergePsd, mergeCsd, hne, h2l]
  · simp [calculateReal, hs]
  · simp [calculateReal, hs]

/-- C3 witness: a concrete fresh one-channel trial, once merged into the
empty accumulator (copy) and once into a concrete nonempty accumulator
(entrywise add), and a concrete one-trial run whose stored `matPsdSum` is
the square root of the fold's sum. -/
theorem claim_C3_witness :
    (compute 1 1 1 ⟨⟨1, 1, fun _ _ => 1⟩, fun _ => 1⟩
        ⟨⟨1, 1, fun _ _ => 2⟩, Mat.emptyR, []⟩ emptyAcc).2
      = ⟨trialPsd ⟨⟨1, 1, fun _ _ => 1⟩, fun _ => 1⟩ 1 1 1 ⟨1, 1, fun _ _ => 2⟩,
         trialCsdPairs ⟨⟨1, 1, fun _ _ => 1⟩, fun _ => 1⟩ 1 1 1 ⟨1, 1, fun _ _ => 2⟩⟩
    ∧ (compute 1 1 1 ⟨⟨1, 1, fun _ _ => 1⟩, fun _ => 1⟩
        ⟨⟨1, 1, fun _ _ => 2⟩, Mat.emptyR, []⟩
        ⟨⟨1, 1, fun _ _ => 3⟩, [(0, ⟨1, 1, fun _ _ => 3⟩)]⟩).2
      = ⟨Mat.add ⟨1, 1, fun _ _ => 3⟩
           (trialPsd ⟨⟨1, 1, fun _ _ => 1⟩, fun _ => 1⟩ 1 1 1 ⟨1, 1, fun _ _ => 2⟩),
         List.zipWith (fun a b => (a.1, Mat.addC a.2 b.2))
           [(0, ⟨1, 1, fun _ _ => 3⟩)]
           (trialCsdPairs ⟨⟨1, 1, fun _ _ => 1⟩, fun _ => 1⟩ 1 1 1 ⟨1, 1, fun _ _ => 2⟩)⟩
    ∧ (calculateReal (fun _ _ => ⟨⟨1, 1, fun _ _ => 1⟩, fun _ => 1⟩) emptyNetwork
        ⟨1, "hanning", [⟨⟨1, 1, fun _ _ => 2⟩, Mat.emptyR, []⟩], emptyAcc⟩).2.data.matPsdSum
      = ((computeList 1 (effectiveNfft 1 1 / 2 + 1) (effectiveNfft 1 1)
            ((fun _ _ => (⟨⟨1, 1, fun _ _ => 1⟩, fun _ => 1⟩ : TaperSet)) 1 "hanning")
            [⟨⟨1, 1, fun _ _ => 2⟩, Mat.emptyR, []⟩]
            emptyAcc).2.matPsdSum).cwiseSqrt := by
  have h := claim_C3_merge_then_sqrt_once 1 1 1
    ⟨⟨1, 1, fun _ _ => 1⟩, fun _ => 1⟩
    ⟨⟨1, 1, fun _ _ => 2⟩, Mat.emptyR, []⟩
    emptyAcc
    ⟨⟨1, 1, fun _ _ => 3⟩, [(0, ⟨1, 1, fun _ _ => 3⟩)]⟩
    (fun _ _ => ⟨⟨1, 1, fun _ _ => 1⟩, fun _ => 1⟩) emptyNetwork
    ⟨1, "hanning", [⟨⟨1, 1, fun _ _ => 2⟩, Mat.emptyR, []⟩], emptyAcc⟩
    ⟨⟨1, 1, fun _ _ => 2⟩, Mat.emptyR, []⟩ []
    rfl rfl rfl rfl (by decide) (by decide) (by simp) rfl
  simpa using And.intro h.1 (And.intro h.2.1 h.2.2.1)

/-- C10 counterexample: `calculate` does not leave the stored `csdSum`
unchanged on a fully memoized (second-call-like) run — on a concrete
memoized settings object whose stored CSD entry is 2 (and stored PSD 4),
one call to `calculate` overwrites the entry with the quotient
`2 / (sqrt 4 * sqrt 4) = 1/2 ≠ 2`. -/
theorem claim_C10_counterexample :
    ((calculate (fun _ _ => ⟨⟨1, 1, fun _ _ => 1⟩, fun _ => 1⟩) []
        ⟨1, "hanning",
         [⟨⟨1, 1, fun _ _ => 0⟩, ⟨1, 1, fun _ _ => 4⟩, [(0, ⟨1, 1, fun _ _ => 2⟩)]⟩],
         ⟨⟨1, 1, fun _ _ => 4⟩, [(0, ⟨1, 1, fun _ _ => 2⟩)]⟩⟩).2.data.vecPairCsdSum.getD 0
      (0, Mat.emptyC)).2.entry 0 0 = 1 / 2
    ∧ ((⟨1, "hanning",
         [⟨⟨1, 1, fun _ _ => 0⟩, ⟨1, 1, fun _ _ => 4⟩, [(0, ⟨1, 1, fun _ _ => 2⟩)]⟩],
         ⟨⟨1, 1, fun _ _ => 4⟩, [(0, ⟨1, 1, fun _ _ => 2⟩)]⟩⟩ :
          ConnectivitySettings).data.vecPairCsdSum.getD 0
      (0, Mat.emptyC)).2.entry 0 0 = 2
    ∧ ((1 : ℂ) / 2 ≠ 2) := by
  have h4 : Real.sqrt 4 * Real.sqrt 4 = 4 := Real.mul_self_sqrt (by norm_num)
  have hm := computeList_memoized 1 (effectiveNfft 1 1 / 2 + 1) (effectiveNfft 1 1)
    ⟨⟨1, 1, fun _ _ => 1⟩, fun _ => 1⟩
    [⟨⟨1, 1, fun _ _ => 0⟩, ⟨1, 1, fun _ _ => 4⟩, [(0, ⟨1, 1, fun _ _ => 2⟩)]⟩]
    ⟨⟨1, 1, fun _ _ => 4⟩, [(0, ⟨1, 1, fun _ _ => 2⟩)]⟩
    (by
      intro u hu
      rw [List.mem_singleton] at hu
      subst hu
      rfl)
  refine ⟨?_, by norm_num, by norm_num⟩
  simp only [calculate, hm]
  simp only [List.map_cons, List.map_nil, computePSDCSD, Mat.cwiseSqrt, cohyEntry]
  simp only [List.getD_eq_getElem?_getD, List.getElem?_cons_zero, Option.getD_some]
  rw [h4]
  norm_num

/-- C10 as amended: every call to `calculateReal`, `calculateImag` or
`calculate` with a non-empty trial list replaces the stored `matPsdSum` with
its entrywise square root, even when every trial hits the memoization
early-return (which skips the merge and leaves the accumulator untouched);
on such a run `calculateReal`/`calculateImag` leave `vecPairCsdSum` and the
trial list unchanged, while `calculate` additionally overwrites each stored
CSD pair with its normalized quotient. -/
theorem claim_C10_amended_sqrt_every_call (gen : ℕ → String → TaperSet)
    (net : Network) (vec : List (ℕ × Mat ℂ)) (s : ConnectivitySettings)
    (t0 : ConnectivityTrialData) (rest : List ConnectivityTrialData)
    (hs : s.m_dataList = t0 :: rest)
    (hmemo : ∀ u ∈ s.m_dataList, memoDone u t0.matData.rows
      (effectiveNfft s.m_iNfft t0.matData.cols / 2 + 1) = true) :
    (calculateReal gen net s).2.data.matPsdSum = s.data.matPsdSum.cwiseSqrt
    ∧ (calculateReal gen net s).2.data.vecPairCsdSum = s.data.vecPairCsdSum
    ∧ (calculateReal gen net s).2.m_dataList = s.m_dataList
    ∧ (calculateImag gen net s).2.data.matPsdSum = s.data.matPsdSum.cwiseSqrt
    ∧ (calculateImag gen net s).2.data.vecPairCsdSum = s.data.vecPairCsdSum
    ∧ (calculate gen vec s).2.data.matPsdSum = s.data.matPsdSum.cwiseSqrt
    ∧ (calculate gen vec s).2.data.vecPairCsdSum
        = s.data.vecPairCsdSum.map fun p => computePSDCSD p (s.data.matPsdSum.cwiseSqrt) := by
  have hm := computeList_memoized t0.matData.rows
    (effectiveNfft s.m_iNfft t0.matData.cols / 2 + 1)
    (effectiveNfft s.m_iNfft t0.matData.cols) (gen t0.matData.cols s.m_sWindowType)
    (t0 :: rest) s.data (fun u hu => hmemo u (by rw [hs]; exact hu))
  refine ⟨?_, ?_, ?_, ?_, ?_, ?_, ?_⟩ <;>
    simp [calculateReal, calculateImag, calculate, hs, hm]

/-- C10 amended witness: on a concrete memoized settings object (stored PSD
entry 9, stored CSD entry 3), `calculateReal` square-roots the stored
`matPsdSum` and `calculate` maps the stored pairs through the quotient. -/
theorem claim_C10_amended_witness :
    (calculateReal (fun _ _ => ⟨⟨1, 1, fun _ _ => 1⟩, fun _ => 1⟩) emptyNetwork
        ⟨1, "hanning",
         [⟨⟨1, 1, fun _ _ => 0⟩, ⟨1, 1, fun _ _ => 9⟩, [(0, ⟨1, 1, fun _ _ => 3⟩)]⟩],
         ⟨⟨1, 1, fun _ _ => 9⟩, [(0, ⟨1, 1, fun _ _ => 3⟩)]⟩⟩).2.data.matPsdSum
      = (⟨⟨1, 1, fun _ _ => 9⟩, [(0, ⟨1, 1, fun _ _ => 3⟩)]⟩ :
          AccumulatedSpectra).matPsdSum.cwiseSqrt
    ∧ (calculate (fun _ _ => ⟨⟨1, 1, fun _ _ => 1⟩, fun _ => 1⟩) []
        ⟨1, "hanning",
         [⟨⟨1, 1, fun _ _ => 0⟩, ⟨1, 1, fun _ _ => 9⟩, [(0, ⟨1, 1, fun _ _ => 3⟩)]⟩],
         ⟨⟨1, 1, fun _ _ => 9⟩, [(0, ⟨1, 1, fun _ _ => 3⟩)]⟩⟩).2.data.vecPairCsdSum
      = (⟨⟨1, 1, fun _ _ => 9⟩, [(0, ⟨1, 1, fun _ _ => 3⟩)]⟩ :
          AccumulatedSpectra).vecPairCsdSum.map fun p =>
            computePSDCSD p ((⟨⟨1, 1, fun _ _ => 9⟩,
              [(0, ⟨1, 1, fun _ _ => 3⟩)]⟩ :
                AccumulatedSpectra).matPsdSum.cwiseSqrt) := by
  have h := claim_C10_amended_sqrt_every_call
    (fun _ _ => ⟨⟨1, 1, fun _ _ => 1⟩, fun _ => 1⟩) emptyNetwork []
    ⟨1, "hanning",
     [⟨⟨1, 1, fun _ _ => 0⟩, ⟨1, 1, fun _ _ => 9⟩, [(0, ⟨1, 1, fun _ _ => 3⟩)]⟩],
     ⟨⟨1, 1, fun _ _ => 9⟩, [(0, ⟨1, 1, fun _ _ => 3⟩)]⟩⟩
    ⟨⟨1, 1, fun _ _ => 0⟩, ⟨1, 1, fun _ _ => 9⟩, [(0, ⟨1, 1, fun _ _ => 3⟩)]⟩ [] rfl
    (by
      intro u hu
      rw [List.mem_singleton] at hu
      subst hu
      rfl)
  exact ⟨h.1, h.2.2.2.2.2.2⟩

end MNE

end
